import Mathlib

/-!
Verification development for the nano personal AI server
(`nano_transmitter_api.py`).  Python dictionaries are modelled as
insertion-ordered association lists, Python floats as exact rationals, the
filesystem of persisted brains as an association list from file paths to
stored documents, Python exceptions as `Except Unit`, and the global random
source as explicit arguments (a stream of draws in `[0,1)` for
`random.choices` and an index for `random.choice`).
-/

set_option autoImplicit false

universe u v

/-! ## Association lists modelling insertion-ordered Python dicts -/

/-- `d.get(k)` / `d[k]`-style lookup: first entry whose key matches. -/
def aGet {κ : Type u} {ν : Type v} [BEq κ] : List (κ × ν) → κ → Option ν
  | [], _ => none
  | e :: rest, k => if e.1 == k then some e.2 else aGet rest k

/-- `d[k] = v`: update the existing entry in place, else append at the end
(Python dicts preserve insertion order). -/
def aSet {κ : Type u} {ν : Type v} [BEq κ] : List (κ × ν) → κ → ν → List (κ × ν)
  | [], k, v => [(k, v)]
  | e :: rest, k, v => if e.1 == k then (k, v) :: rest else e :: aSet rest k v

/-- `del d[k]` / the disappearance of a moved file: drop entries with key `k`. -/
def aDel {κ : Type u} {ν : Type v} [BEq κ] (m : List (κ × ν)) (k : κ) : List (κ × ν) :=
  m.filter (fun e => !(e.1 == k))

/-! ## Data model: the per-user brain (`default_brain` in the source) -/

/-- A per-user brain: `context`, `words`, `letters`, `meta` exactly as in the
Python dict produced by `default_brain`. -/
structure Brain where
  context : List (String × String)
  words : List (String × List (String × ℚ))
  letters : List (Char × List (Char × ℚ))
  meta : List (String × String)
deriving DecidableEq

def withContext (b : Brain) (c : List (String × String)) : Brain :=
  ⟨c, b.words, b.letters, b.meta⟩

def withWords (b : Brain) (w : List (String × List (String × ℚ))) : Brain :=
  ⟨b.context, w, b.letters, b.meta⟩

def withLetters (b : Brain) (l : List (Char × List (Char × ℚ))) : Brain :=
  ⟨b.context, b.words, l, b.meta⟩

/-- `default_brain()`: empty maps, tone `"neutral"`. -/
def default_brain : Brain :=
  ⟨[], [], [], [("tone", "neutral")]⟩

/-! ## BrainStore: paths and the persisted filesystem -/

/-- The sanitization inside `user_path`:
`"".join(c for c in user_id if c.isalnum() or c in "-_")`. -/
def sanitize_id (user_id : String) : String :=
  String.mk (user_id.data.filter (fun c => c.isAlphanum || c == '-' || c == '_'))

/-- `user_path`: `os.path.join(MEMORY_DIR, f"{safe}.json")` with
`MEMORY_DIR = "user_brains"`. -/
def user_path (user_id : String) : String :=
  "user_brains/" ++ sanitize_id user_id ++ ".json"

/-- The temporary path `path + ".tmp"` used by `save_brain`. -/
def tmp_path (user_id : String) : String :=
  user_path user_id ++ ".tmp"

/-- A persisted file's content: either a well-formed serialized brain
(`json.load` succeeds and yields it) or malformed content
(`json.load` raises). -/
inductive StoredDoc where
  | good (b : Brain)
  | bad
deriving DecidableEq

/-- The persisted store: association list from file path to content. -/
abbrev FS := List (String × StoredDoc)

/-- `load_brain`: if the file exists, `json.load` it (raising on malformed
content); otherwise return `default_brain()`. -/
def load_brain (fs : FS) (user_id : String) : Except Unit Brain :=
  match aGet fs (user_path user_id) with
  | none => .ok default_brain
  | some (.good b) => .ok b
  | some .bad => .error ()

/-- The first half of `save_brain`: write the serialized brain (or, when a
crash interrupts `json.dump`, arbitrary possibly-partial content `d`) to the
temporary path. -/
def save_write_tmp (fs : FS) (user_id : String) (d : StoredDoc) : FS :=
  aSet fs (tmp_path user_id) d

/-- `os.replace(src, dst)`: atomically move the file at `src` onto `dst`. -/
def os_replace (fs : FS) (src dst : String) : FS :=
  match aGet fs src with
  | some d => aDel (aSet fs dst d) src
  | none => fs

/-- `save_brain`: write to the temporary path, then `os.replace` it onto the
target path. -/
def save_brain (fs : FS) (user_id : String) (b : Brain) : FS :=
  os_replace (save_write_tmp fs user_id (.good b)) (tmp_path user_id) (user_path user_id)

/-! ## String helpers mirroring Python primitives -/

/-- Python `s.lower()` (character-wise, as in the ASCII cases the server
handles). -/
def pyLower (s : String) : String :=
  String.mk (s.data.map Char.toLower)

/-- Python `s.strip()`: drop leading and trailing whitespace. -/
def pyStrip (s : String) : String :=
  String.mk (((s.data.dropWhile Char.isWhitespace).reverse.dropWhile Char.isWhitespace).reverse)

/-- Worker for `pySplit`: scan the characters, collecting the current token
in `acc` (reversed) and cutting at whitespace runs. -/
def pySplitAux : List Char → List Char → List String
  | [], acc => if acc.isEmpty then [] else [String.mk acc.reverse]
  | c :: rest, acc =>
    if c.isWhitespace then
      if acc.isEmpty then pySplitAux rest []
      else String.mk acc.reverse :: pySplitAux rest []
    else pySplitAux rest (c :: acc)

/-- Python `text.split()`: split on whitespace runs, dropping empty pieces. -/
def pySplit (s : String) : List String :=
  pySplitAux s.data []

/-- Worker for `pySplitOn`: left-to-right scan consuming non-overlapping
occurrences of `sep`; `fuel` (initially the string length) makes the
recursion structural while the scan consumes at least one character per
step. -/
def pySplitOnAux (sep : List Char) : Nat → List Char → List Char → List (List Char)
  | _, [], acc => [acc.reverse]
  | 0, cs, acc => [acc.reverse ++ cs]
  | fuel + 1, c :: rest, acc =>
    if sep ≠ [] ∧ sep.isPrefixOf (c :: rest) then
      acc.reverse :: pySplitOnAux sep fuel ((c :: rest).drop sep.length) []
    else pySplitOnAux sep fuel rest (c :: acc)

/-- Python `s.split(sep)` with an explicit separator. -/
def pySplitOn (s sep : String) : List String :=
  (pySplitOnAux sep.data s.data.length s.data []).map String.mk

/-- Python `needle in hay` on strings: substring containment. -/
def strContains (hay needle : String) : Bool :=
  hay.data.tails.any (fun t => needle.data.isPrefixOf t)

/-- Adjacent pairs `(l[i], l[i+1])` of a list. -/
def adjPairs {α : Type u} : List α → List (α × α)
  | a :: b :: rest => (a, b) :: adjPairs (b :: rest)
  | _ => []

/-- Python `l.index(a)` (assuming membership, as the source guards it). -/
def listIndex : List String → String → Nat
  | [], _ => 0
  | x :: rest, a => if x = a then 0 else listIndex rest a + 1

/-- Python `a or d` where `a` is an optional string and `None`/`""` are
falsy. -/
def orFalsy (a : Option String) (d : String) : String :=
  match a with
  | some s => if s = "" then d else s
  | none => d

/-! ## LearningEngine -/

/-- One step of `update_word_connections`:
`brain["words"].setdefault(a, {})` followed by
`brain["words"][a][b] = brain["words"][a].get(b, 0.0) + weight_inc`
(generic over the key type so the letter graph reuses it). -/
def bumpA {κ : Type u} [BEq κ] (g : List (κ × List (κ × ℚ))) (a b : κ) (inc : ℚ) :
    List (κ × List (κ × ℚ)) :=
  let m := (aGet g a).getD []
  aSet g a (aSet m b ((aGet m b).getD 0 + inc))

/-- `update_word_connections(brain, text, weight_inc)`: for each adjacent pair
of lowercased whitespace tokens, add `weight_inc` to the edge. -/
def update_word_connections (brain : Brain) (text : String) (weight_inc : ℚ) : Brain :=
  withWords brain
    ((adjPairs ((pySplit text).map pyLower)).foldl
      (fun g p => bumpA g p.1 p.2 weight_inc) brain.words)

/-- `update_letter_connections(brain, text, weight_inc)`: for each token (as
observed, not lowercased) and each adjacent character pair, add
`weight_inc`. -/
def update_letter_connections (brain : Brain) (text : String) (weight_inc : ℚ) : Brain :=
  withLetters brain
    ((pySplit text).foldl
      (fun g w => (adjPairs w.data).foldl (fun g2 p => bumpA g2 p.1 p.2 weight_inc) g)
      brain.letters)

/-- The decay loop in `chat_endpoint`:
`brain["words"][a][b] = max(0.0, brain["words"][a][b] * 0.997)` over every
existing word edge. -/
def decay_words (brain : Brain) : Brain :=
  withWords brain
    (brain.words.map (fun aw => (aw.1, aw.2.map (fun bw => (bw.1, max 0 (bw.2 * (997 / 1000)))))))

/-- `learn_context_from_text(brain, text)`.  The `"my name is"` branch indexes
`tl.split("my name is")[-1].strip().split()[0]`, which raises `IndexError`
when no token follows the phrase; this is the `.error` case. -/
def learn_context_from_text (brain : Brain) (text : String) : Except Unit Brain :=
  let tl := pyLower text
  let ws := pySplit tl
  let step1 : Except Unit Brain :=
    if strContains tl "my name is" then
      match pySplit (pyStrip ((pySplitOn tl "my name is").getLastD "")) with
      | [] => .error ()
      | n :: _ =>
        .ok (if n = "" then brain else withContext brain (aSet brain.context "name" n))
    else if strContains tl "i am" ∧ "am" ∈ ws then
      let i := listIndex ws "am"
      .ok (if i + 1 < ws.length then
             withContext brain (aSet brain.context "you" (ws.getD (i + 1) ""))
           else brain)
    else .ok brain
  match step1 with
  | .error e => .error e
  | .ok b1 =>
    .ok (if ws.length > 2 ∧ ws.getD 0 "" = "i" ∧ (ws.getD 1 "" = "like" ∨ ws.getD 1 "" = "love")
         then withContext b1 (aSet b1.context "likes" (ws.getD 2 ""))
         else b1)

/-! ## InferenceEngine -/

/-- Total weight of an edge map (the `total` computed by `random.choices`). -/
def sumW (m : List (String × ℚ)) : ℚ :=
  (m.map Prod.snd).sum

/-- The selection `population[bisect_right(cum_weights, u * total, 0, n - 1)]`
performed by `random.choices`, as a cursor walk over the weights.  The final
singleton case realizes the `hi = n - 1` cap. -/
def pickGo : List (String × ℚ) → ℚ → String
  | [], _ => ""
  | [kw], _ => kw.1
  | kw :: rest, x => if x < kw.2 then kw.1 else pickGo rest (x - kw.2)

/-- `random.choices(choices, weights=weights, k=1)[0]` with draw
`u ∈ [0,1)`: raises `ValueError` (CPython ≥ 3.9) when the total weight is not
positive. -/
def weightedChoice (m : List (String × ℚ)) (u : ℚ) : Except Unit String :=
  if sumW m ≤ 0 then .error () else .ok (pickGo m (u * sumW m))

/-- Python `max(d, key=d.get)` over a non-empty dict presented as first entry
plus rest: a later entry replaces the current best only when strictly
greater, so the first-inserted maximum wins. -/
def maxPairGo : Char × ℚ → List (Char × ℚ) → Char × ℚ
  | best, [] => best
  | best, kv :: rest => if best.2 < kv.2 then maxPairGo kv rest else maxPairGo best rest

/-- The letter-based fallback of `predict_next_word`:
`if word and word[-1] in brain["letters"]` take the max-weight successor of
the last character (a `max` over an empty dict raises), else return `"?"`. -/
def letter_fallback (brain : Brain) (w : String) : Except Unit String :=
  match w.data.getLast? with
  | none => .ok "?"
  | some c =>
    match aGet brain.letters c with
    | none => .ok "?"
    | some [] => .error ()
    | some (kv :: rest) => .ok (w.push (maxPairGo kv rest).1)

/-- `predict_next_word(brain, word)` with explicit random draw `u`. -/
def predict_next_word (brain : Brain) (u : ℚ) (word : String) : Except Unit String :=
  let w := pyLower word
  match aGet brain.words w with
  | some m => if m.isEmpty then letter_fallback brain w else weightedChoice m u
  | none => letter_fallback brain w

/-- The loop body of `build_sentence_from`: `for _ in range(max_len - 1)`,
stopping on `not nxt or nxt in sentence`. -/
def buildList (brain : Brain) : List ℚ → List String → String → Nat → Except Unit (List String)
  | _, sentence, _, 0 => .ok sentence
  | us, sentence, current, fuel + 1 =>
    match predict_next_word brain (us.headD 0) current with
    | .error e => .error e
    | .ok nxt =>
      if nxt = "" ∨ nxt ∈ sentence then .ok sentence
      else buildList brain us.tail (sentence ++ [nxt]) nxt fuel

/-- The token sequence built by `build_sentence_from(brain, start_word,
max_len)` before joining. -/
def build_sentence_list (brain : Brain) (us : List ℚ) (start_word : String) (max_len : Nat) :
    Except Unit (List String) :=
  buildList brain us [start_word] start_word (max_len - 1)

/-- `build_sentence_from`: the space-joined sequence. -/
def build_sentence_from (brain : Brain) (us : List ℚ) (start_word : String) (max_len : Nat) :
    Except Unit String :=
  (build_sentence_list brain us start_word max_len).map (String.intercalate " ")

/-- `apply_tone(user_brain, base_text)`. -/
def apply_tone (b : Brain) (base_text : String) : String :=
  let tone := (aGet b.meta "tone").getD "neutral"
  let name := orFalsy (aGet b.context "name") (orFalsy (aGet b.context "you") "")
  if tone = "friendly" then
    if name ≠ "" then "Hey " ++ name ++ "! " ++ base_text ++ " ðŸ˜Š"
    else base_text ++ " ðŸ˜Š"
  else if tone = "funny" then base_text ++ " ðŸ˜‚"
  else if tone = "formal" then
    if name ≠ "" then "Hello " ++ name ++ ". " ++ base_text
    else base_text
  else base_text

/-! ## The `/chat` endpoint -/

/-- The identity-query test in `chat_endpoint` on the lowercased message. -/
def isIdentityQuery (tl : String) : Bool :=
  strContains tl "who am i" || strContains tl "who i am" || strContains tl "what is my name"

/-- `brain.get("context", {}).get("you") or brain.get("context", {}).get("name")`
as used on the identity path (empty strings are falsy). -/
def identityName (b : Brain) : String :=
  orFalsy (aGet b.context "you") (orFalsy (aGet b.context "name") "")

/-- The filler replies drawn by `random.choice`. -/
def fillers : List String :=
  ["Tell me more.", "Interesting.", "I see.", "Okay."]

/-- `user_id = str(payload.get("user_id", "guest")).strip() or "guest"`. -/
def normId (user_id : String) : String :=
  if pyStrip user_id = "" then "guest" else pyStrip user_id

/-- The learning block of `chat_endpoint`: context extraction, word-graph
reinforcement (increment 1.0), letter-graph reinforcement (increment 0.05),
then the decay pass. -/
def ingest_msg (b : Brain) (message : String) : Except Unit Brain :=
  match learn_context_from_text b message with
  | .error e => .error e
  | .ok b1 =>
    .ok (decay_words (update_letter_connections (update_word_connections b1 message 1)
          message (1 / 20)))

/-- The learning block of `chat_endpoint` cut just before the decay pass
(used to observe pre-decay weights). -/
def ingest_pre (b : Brain) (message : String) : Except Unit Brain :=
  match learn_context_from_text b message with
  | .error e => .error e
  | .ok b1 =>
    .ok (update_letter_connections (update_word_connections b1 message 1) message (1 / 20))

/-- Outcome of a `/chat` request: the 400 "message required" response or a
reply string. -/
inductive ChatResult where
  | badRequest
  | reply (text : String)
deriving DecidableEq

/-- The reply text of a `ChatResult` (empty for the 400 response). -/
def replyText : ChatResult → String
  | .badRequest => ""
  | .reply t => t

/-- `chat_endpoint(payload)` over the persisted store `fs`, with the random
draws `us` consumed by prediction and the `random.choice` index `k`. -/
def chat_endpoint (fs : FS) (user_id0 message0 : String) (us : List ℚ) (k : Nat) :
    Except Unit (ChatResult × FS) :=
  let user_id := normId user_id0
  let message := pyStrip message0
  if message = "" then .ok (.badRequest, fs)
  else
    match load_brain fs user_id with
    | .error e => .error e
    | .ok brain0 =>
      match ingest_msg brain0 message with
      | .error e => .error e
      | .ok brain =>
        let tl := pyLower message
        if isIdentityQuery tl then
          if identityName brain ≠ "" then
            let base := "Your name is " ++ identityName brain ++ "."
            .ok (.reply (apply_tone brain base), save_brain fs user_id brain)
          else
            .ok (.reply (apply_tone brain
                  "I don\x27t know your name yet. You can say: \x27My name is ...\x27"), fs)
        else
          let ws := pySplit message
          let start := ws.getLastD ""
          match (if start ≠ "" then build_sentence_from brain us start 8 else .ok "Hello") with
          | .error e => .error e
          | .ok predicted =>
            let base_reply :=
              if predicted ≠ "" ∧ predicted ≠ start then predicted
              else fillers.getD (k % 4) "Tell me more."
            .ok (.reply (apply_tone brain base_reply), save_brain fs user_id brain)

/-! ## Auxiliary predicates used by the claims -/

/-- The weight of edge `a → t` in a two-level adjacency structure. -/
def graphWeight {κ : Type u} [BEq κ] (g : List (κ × List (κ × ℚ))) (a t : κ) : Option ℚ :=
  (aGet g a).bind (fun m => aGet m t)

/-- The weight of word edge `a → t` in a brain, when present. -/
def wordWeight (b : Brain) (a t : String) : Option ℚ :=
  graphWeight b.words a t

/-- Several `/chat` learning passes in sequence over the same brain
(the store round-trip preserves the brain exactly, so this is the brain
evolution across consecutive requests). -/
def ingest_seq (b : Brain) : List String → Except Unit Brain
  | [] => .ok b
  | m :: rest =>
    match ingest_msg b m with
    | .error e => .error e
    | .ok b2 => ingest_seq b2 rest

/-- Decidable precondition for C4: any non-empty outgoing word-edge map of
`w` has positive total weight. -/
def edgesTotalOk (g : List (String × List (String × ℚ))) (w : String) : Bool :=
  match aGet g w with
  | some m => m.isEmpty || decide (0 < sumW m)
  | none => true

/-- Decidable precondition for C4: the letter entry of the last character of
`w`, if any, is non-empty. -/
def lettersOk (lg : List (Char × List (Char × ℚ))) (w : String) : Bool :=
  match w.data.getLast? with
  | some c =>
    match aGet lg c with
    | some lm => !lm.isEmpty
    | none => true
  | none => true

/-- Every value of an edge map is non-negative. -/
def MapNN {κ : Type u} (m : List (κ × ℚ)) : Prop :=
  ∀ p ∈ m, 0 ≤ p.2

/-- Every edge weight of a graph is non-negative. -/
def GraphNN {κ : Type u} (g : List (κ × List (κ × ℚ))) : Prop :=
  ∀ q ∈ g, MapNN q.2

/-- Both graphs of a brain carry only non-negative weights. -/
def BrainNN (b : Brain) : Prop :=
  GraphNN b.words ∧ GraphNN b.letters

instance {κ : Type u} (m : List (κ × ℚ)) : Decidable (MapNN m) := by
  unfold MapNN; infer_instance

instance {κ : Type u} (g : List (κ × List (κ × ℚ))) : Decidable (GraphNN g) := by
  unfold GraphNN; infer_instance

instance (b : Brain) : Decidable (BrainNN b) := by
  unfold BrainNN; infer_instance

instance exceptDecEq {ε : Type u} {α : Type v} [DecidableEq ε] [DecidableEq α] :
    DecidableEq (Except ε α) := fun x y =>
  match x, y with
  | .ok a, .ok b =>
    if h : a = b then .isTrue (by rw [h]) else .isFalse (fun hc => h (by injection hc))
  | .error e, .error f =>
    if h : e = f then .isTrue (by rw [h]) else .isFalse (fun hc => h (by injection hc))
  | .ok _, .error _ => .isFalse (fun hc => Except.noConfusion hc)
  | .error _, .ok _ => .isFalse (fun hc => Except.noConfusion hc)

section ClaimProofs

attribute [local semireducible] Rat.mul Rat.add Rat.sub Rat.inv

/-! ## Association-list lemmas -/

theorem aGet_aSet_self {κ : Type u} {ν : Type v} [BEq κ] [LawfulBEq κ] :
    ∀ (m : List (κ × ν)) (k : κ) (v : ν), aGet (aSet m k v) k = some v
  | [], k, v => by simp [aSet, aGet]
  | e :: rest, k, v => by
    by_cases h : e.1 = k
    · simp [aSet, aGet, h]
    · simp only [aSet, aGet]
      rw [if_neg (by simpa using h)]
      simp [aGet, h, aGet_aSet_self rest k v]

theorem aGet_aSet_ne {κ : Type u} {ν : Type v} [BEq κ] [LawfulBEq κ] :
    ∀ (m : List (κ × ν)) (k k2 : κ) (v : ν), k2 ≠ k → aGet (aSet m k v) k2 = aGet m k2
  | [], k, k2, v, h => by
    have hb : (k == k2) = false := beq_false_of_ne (Ne.symm h)
    simp [aSet, aGet, hb]
  | e :: rest, k, k2, v, h => by
    have hb : (k == k2) = false := beq_false_of_ne (Ne.symm h)
    by_cases he : e.1 = k
    · simp [aSet, aGet, he, hb]
    · simp only [aSet, aGet]
      rw [if_neg (by simpa using he)]
      by_cases he2 : e.1 = k2
      · simp [aGet, he2]
      · simp [aGet, he2, aGet_aSet_ne rest k k2 v h]

theorem mem_aSet {κ : Type u} {ν : Type v} [BEq κ] :
    ∀ {m : List (κ × ν)} {k : κ} {v : ν} {p : κ × ν}, p ∈ aSet m k v → p.2 = v ∨ p ∈ m := by
  intro m
  induction m with
  | nil => intro k v p hp; simp [aSet] at hp; exact Or.inl (by rw [hp])
  | cons e rest ih =>
    intro k v p hp
    simp only [aSet] at hp
    by_cases he : (e.1 == k) = true
    · rw [if_pos he] at hp
      rcases List.mem_cons.mp hp with h | h
      · exact Or.inl (by rw [h])
      · exact Or.inr (List.mem_cons_of_mem _ h)
    · rw [if_neg he] at hp
      rcases List.mem_cons.mp hp with h | h
      · exact Or.inr (by rw [h]; exact List.mem_cons_self _ _)
      · rcases ih h with h2 | h2
        · exact Or.inl h2
        · exact Or.inr (List.mem_cons_of_mem _ h2)

theorem aGet_mem {κ : Type u} {ν : Type v} [BEq κ] :
    ∀ {m : List (κ × ν)} {k : κ} {v : ν}, aGet m k = some v → ∃ p ∈ m, p.2 = v := by
  intro m
  induction m with
  | nil => intro k v h; simp [aGet] at h
  | cons e rest ih =>
    intro k v h
    simp only [aGet] at h
    by_cases he : (e.1 == k) = true
    · rw [if_pos he] at h
      exact ⟨e, List.mem_cons_self _ _, by injection h⟩
    · rw [if_neg he] at h
      obtain ⟨p, hp, hv⟩ := ih h
      exact ⟨p, List.mem_cons_of_mem _ hp, hv⟩

theorem aGet_aDel_self {κ : Type u} {ν : Type v} [BEq κ] [LawfulBEq κ] :
    ∀ (m : List (κ × ν)) (k : κ), aGet (aDel m k) k = none
  | [], k => rfl
  | e :: rest, k => by
    by_cases he : (e.1 == k) = true
    · simpa [aDel, List.filter_cons, he] using aGet_aDel_self rest k
    · have hb : (e.1 == k) = false := by simpa using he
      simpa [aDel, List.filter_cons, hb, aGet] using aGet_aDel_self rest k

theorem aGet_aDel_ne {κ : Type u} {ν : Type v} [BEq κ] [LawfulBEq κ] :
    ∀ (m : List (κ × ν)) (k k2 : κ), k2 ≠ k → aGet (aDel m k) k2 = aGet m k2
  | [], k, k2, h => rfl
  | e :: rest, k, k2, h => by
    by_cases he : (e.1 == k) = true
    · have he2 : (e.1 == k2) = false := by
        have hk : e.1 = k := by simpa using he
        exact beq_false_of_ne (hk ▸ Ne.symm h)
      simpa [aDel, List.filter_cons, he, aGet, he2] using aGet_aDel_ne rest k k2 h
    · have hb : (e.1 == k) = false := by simpa using he
      by_cases he2 : (e.1 == k2) = true
      · simp [aDel, List.filter_cons, hb, aGet, he2]
      · have hb2 : (e.1 == k2) = false := by simpa using he2
        simpa [aDel, List.filter_cons, hb, aGet, hb2] using aGet_aDel_ne rest k k2 h

theorem aGet_map_snd {κ : Type u} {ν ν2 : Type v} [BEq κ] (f : ν → ν2) :
    ∀ (m : List (κ × ν)) (k : κ),
      aGet (m.map (fun p => (p.1, f p.2))) k = (aGet m k).map f
  | [], k => rfl
  | e :: rest, k => by
    by_cases he : (e.1 == k) = true
    · simp [aGet, he]
    · simp [aGet, he, aGet_map_snd f rest k]

/-! ## Non-negativity lemmas (claim C9) -/

theorem MapNN_aSet {κ : Type u} [BEq κ] {m : List (κ × ℚ)} {k : κ} {v : ℚ}
    (hm : MapNN m) (hv : 0 ≤ v) : MapNN (aSet m k v) :=
  fun p hp => (mem_aSet hp).elim (fun h => h ▸ hv) (hm p)

theorem GraphNN_aSet {κ : Type u} [BEq κ] {g : List (κ × List (κ × ℚ))} {k : κ}
    {mv : List (κ × ℚ)} (hg : GraphNN g) (hmv : MapNN mv) : GraphNN (aSet g k mv) :=
  fun q hq => (mem_aSet hq).elim (fun h => h ▸ hmv) (hg q)

theorem MapNN_getD {κ : Type u} [BEq κ] {g : List (κ × List (κ × ℚ))} {a : κ}
    (hg : GraphNN g) : MapNN ((aGet g a).getD []) := by
  cases hga : aGet g a with
  | none => intro p hp; simp at hp
  | some m =>
    obtain ⟨q, hq, hv⟩ := aGet_mem hga
    intro p hp
    exact hg q hq p (hv ▸ hp)

theorem GraphNN_bumpA {κ : Type u} [BEq κ] {g : List (κ × List (κ × ℚ))} {a b : κ}
    {inc : ℚ} (hg : GraphNN g) (hinc : 0 ≤ inc) : GraphNN (bumpA g a b inc) := by
  unfold bumpA
  apply GraphNN_aSet hg
  apply MapNN_aSet (MapNN_getD hg)
  have h0 : 0 ≤ (aGet ((aGet g a).getD []) b).getD 0 := by
    cases hgb : aGet ((aGet g a).getD []) b with
    | none => simp
    | some v =>
      obtain ⟨p, hp, hv⟩ := aGet_mem hgb
      simpa using hv ▸ MapNN_getD hg p hp
  exact add_nonneg h0 hinc

theorem GraphNN_foldl_bumpA {κ : Type u} [BEq κ] {inc : ℚ} (hinc : 0 ≤ inc) :
    ∀ (ps : List (κ × κ)) (g : List (κ × List (κ × ℚ))), GraphNN g →
      GraphNN (ps.foldl (fun g2 p => bumpA g2 p.1 p.2 inc) g)
  | [], _, hg => hg
  | p :: rest, g, hg =>
    GraphNN_foldl_bumpA hinc rest (bumpA g p.1 p.2 inc) (GraphNN_bumpA hg hinc)

theorem GraphNN_foldl_tokens {inc : ℚ} (hinc : 0 ≤ inc) :
    ∀ (ts : List String) (g : List (Char × List (Char × ℚ))), GraphNN g →
      GraphNN (ts.foldl
        (fun g2 w => (adjPairs w.data).foldl (fun g3 p => bumpA g3 p.1 p.2 inc) g2) g)
  | [], _, hg => hg
  | w :: rest, g, hg =>
    GraphNN_foldl_tokens hinc rest _ (GraphNN_foldl_bumpA hinc (adjPairs w.data) g hg)

theorem GraphNN_decay_map (g : List (String × List (String × ℚ))) :
    GraphNN (g.map (fun aw => (aw.1, aw.2.map (fun bw => (bw.1, max 0 (bw.2 * (997 / 1000))))))) := by
  intro q hq
  obtain ⟨aw, haw, rfl⟩ := List.mem_map.mp hq
  intro p hp
  obtain ⟨bw, hbw, rfl⟩ := List.mem_map.mp hp
  exact le_max_left 0 _

theorem wordWeight_decay (b : Brain) (a t : String) :
    wordWeight (decay_words b) a t = (wordWeight b a t).map (fun v => max 0 (v * (997 / 1000))) := by
  unfold wordWeight graphWeight decay_words withWords
  simp only [aGet_map_snd]
  cases aGet b.words a with
  | none => rfl
  | some m => exact aGet_map_snd (fun v => 0 ⊔ v * (997 / 1000)) m t

/-! ## Edge-preservation lemmas (claim C5) -/

theorem graphWeight_bumpA {κ : Type u} [BEq κ] [LawfulBEq κ] (g : List (κ × List (κ × ℚ)))
    (x y a t : κ) (inc : ℚ) (h : ¬(x = a ∧ y = t)) :
    graphWeight (bumpA g x y inc) a t = graphWeight g a t := by
  unfold graphWeight bumpA
  by_cases hx : x = a
  · subst hx
    have hy : y ≠ t := fun hy => h ⟨rfl, hy⟩
    rw [aGet_aSet_self]
    simp only [Option.some_bind]
    rw [aGet_aSet_ne _ _ _ _ (Ne.symm hy)]
    cases hga : aGet g x with
    | none => simp [aGet]
    | some m => simp
  · rw [aGet_aSet_ne _ _ _ _ (fun ha => hx ha.symm)]

theorem graphWeight_foldl_bumpA {κ : Type u} [BEq κ] [LawfulBEq κ] (a t : κ) (inc : ℚ) :
    ∀ (ps : List (κ × κ)) (g : List (κ × List (κ × ℚ))), (a, t) ∉ ps →
      graphWeight (ps.foldl (fun g2 p => bumpA g2 p.1 p.2 inc) g) a t = graphWeight g a t
  | [], _, _ => rfl
  | (pa, pb) :: rest, g, h => by
    have hne : (a, t) ≠ (pa, pb) := fun he => h (he ▸ List.mem_cons_self _ _)
    have hrest : (a, t) ∉ rest := fun he => h (List.mem_cons_of_mem _ he)
    rw [List.foldl_cons]
    rw [graphWeight_foldl_bumpA a t inc rest _ hrest]
    exact graphWeight_bumpA g pa pb a t inc (fun hc => hne (by rw [hc.1, hc.2]))

theorem wordWeight_update_word (b : Brain) (text : String) (inc : ℚ) (a t : String)
    (h : (a, t) ∉ adjPairs ((pySplit text).map pyLower)) :
    wordWeight (update_word_connections b text inc) a t = wordWeight b a t := by
  unfold wordWeight update_word_connections withWords
  exact graphWeight_foldl_bumpA a t inc _ b.words h

theorem learn_context_words (b : Brain) (t : String) (b2 : Brain)
    (h : learn_context_from_text b t = .ok b2) : b2.words = b.words := by
  simp only [learn_context_from_text] at h
  split at h
  · exact Except.noConfusion h
  next b1 heq =>
    have hb1 : b1.words = b.words := by
      split at heq
      · split at heq
        · exact Except.noConfusion heq
        · injection heq with h3
          rw [← h3]
          split
          · rfl
          · rfl
      · split at heq
        · injection heq with h3
          rw [← h3]
          split
          · rfl
          · rfl
        · injection heq with h3
          rw [← h3]
    injection h with h2
    rw [← h2]
    split
    · exact hb1
    · exact hb1

theorem ingest_other_edge (b : Brain) (t3 : String) (b3 : Brain) (a t : String)
    (hp : (a, t) ∉ adjPairs ((pySplit t3).map pyLower))
    (h : ingest_msg b t3 = .ok b3) :
    wordWeight b3 a t = (wordWeight b a t).map (fun v => max 0 (v * (997 / 1000))) := by
  unfold ingest_msg at h
  cases hlc : learn_context_from_text b t3 with
  | error e => rw [hlc] at h; exact Except.noConfusion h
  | ok b1 =>
    rw [hlc] at h
    have h2 : decay_words (update_letter_connections (update_word_connections b1 t3 1)
        t3 (1 / 20)) = b3 := by injection h
    rw [← h2, wordWeight_decay]
    have h4 : wordWeight (update_letter_connections (update_word_connections b1 t3 1)
        t3 (1 / 20)) a t = wordWeight (update_word_connections b1 t3 1) a t := rfl
    rw [h4, wordWeight_update_word b1 t3 1 a t hp]
    unfold wordWeight graphWeight
    rw [learn_context_words b t3 b1 hlc]

/-! ## Generation-loop invariant (claims C7, C8) -/

theorem buildList_spec (brain : Brain) :
    ∀ (fuel : Nat) (us : List ℚ) (sentence : List String) (current : String) (l : List String),
      buildList brain us sentence current fuel = .ok l →
      ∃ ext, l = sentence ++ ext ∧ l.length ≤ sentence.length + fuel ∧
        (sentence.Nodup → l.Nodup) ∧ ∀ x ∈ ext, x ≠ "" := by
  intro fuel
  induction fuel with
  | zero =>
    intro us sentence current l h
    simp only [buildList] at h
    injection h with h2
    subst h2
    exact ⟨[], by simp, by simp, fun hn => hn, by simp⟩
  | succ fuel ih =>
    intro us sentence current l h
    simp only [buildList] at h
    split at h
    · exact Except.noConfusion h
    next nxt hp =>
      split at h
      · injection h with h2
        subst h2
        exact ⟨[], by simp, by simp, fun hn => hn, by simp⟩
      next hstop =>
        obtain ⟨ext, hl, hlen, hnd, hne⟩ := ih us.tail (sentence ++ [nxt]) nxt l h
        push_neg at hstop
        refine ⟨nxt :: ext, ?_, ?_, ?_, ?_⟩
        · rw [hl]; simp
        · simp only [List.length_append, List.length_singleton] at hlen
          omega
        · intro hs
          apply hnd
          rw [List.nodup_append]
          exact ⟨hs, List.nodup_singleton _, by
            intro x hx hx2
            rw [List.mem_singleton.mp hx2] at hx
            exact hstop.2 hx⟩
        · intro x hx
          rcases List.mem_cons.mp hx with rfl | hx2
          · exact hstop.1
          · exact hne x hx2

/-! ## Selection lemmas (claim C4) -/

theorem pickGo_mem : ∀ (m : List (String × ℚ)) (x : ℚ), m ≠ [] → ∃ p ∈ m, pickGo m x = p.1
  | [], _, h => absurd rfl h
  | [kw], x, _ => ⟨kw, List.mem_singleton_self _, rfl⟩
  | kw :: kw2 :: rest, x, _ => by
    by_cases hx : x < kw.2
    · exact ⟨kw, List.mem_cons_self _ _, by simp only [pickGo]; rw [if_pos hx]⟩
    · obtain ⟨p, hp, hpk⟩ := pickGo_mem (kw2 :: rest) (x - kw.2) (by simp)
      exact ⟨p, List.mem_cons_of_mem _ hp, by simp only [pickGo]; rw [if_neg hx]; exact hpk⟩

theorem maxPairGo_spec : ∀ (l : List (Char × ℚ)) (best : Char × ℚ),
    (maxPairGo best l = best ∧ ∀ p ∈ l, p.2 ≤ best.2) ∨
    (∃ pre post, l = pre ++ maxPairGo best l :: post ∧ best.2 < (maxPairGo best l).2 ∧
      (∀ p ∈ pre, p.2 < (maxPairGo best l).2) ∧ ∀ p ∈ l, p.2 ≤ (maxPairGo best l).2) := by
  intro l
  induction l with
  | nil => intro best; exact Or.inl ⟨rfl, by simp⟩
  | cons kv rest ih =>
    intro best
    by_cases hb : best.2 < kv.2
    · have hgo : maxPairGo best (kv :: rest) = maxPairGo kv rest := by
        simp only [maxPairGo]; rw [if_pos hb]
      rcases ih kv with ⟨hr, hall⟩ | ⟨pre, post, hsplit, hlt, hpre, hall⟩
      · refine Or.inr ⟨[], rest, ?_, ?_, by simp, ?_⟩
        · rw [hgo, hr]; simp
        · rw [hgo, hr]; exact hb
        · rw [hgo, hr]
          intro p hp
          rcases List.mem_cons.mp hp with rfl | hp2
          · exact le_refl _
          · exact hall p hp2
      · refine Or.inr ⟨kv :: pre, post, ?_, ?_, ?_, ?_⟩
        · rw [hgo, List.cons_append, ← hsplit]
        · rw [hgo]; exact lt_trans hb hlt
        · rw [hgo]
          intro p hp
          rcases List.mem_cons.mp hp with rfl | hp2
          · exact hlt
          · exact hpre p hp2
        · rw [hgo]
          intro p hp
          rcases List.mem_cons.mp hp with rfl | hp2
          · exact le_of_lt hlt
          · exact hall p hp2
    · have hgo : maxPairGo best (kv :: rest) = maxPairGo best rest := by
        simp only [maxPairGo]; rw [if_neg hb]
      have hkv : kv.2 ≤ best.2 := not_lt.mp hb
      rcases ih best with ⟨hr, hall⟩ | ⟨pre, post, hsplit, hlt, hpre, hall⟩
      · refine Or.inl ⟨by rw [hgo, hr], ?_⟩
        intro p hp
        rcases List.mem_cons.mp hp with rfl | hp2
        · exact hkv
        · exact hall p hp2
      · refine Or.inr ⟨kv :: pre, post, ?_, ?_, ?_, ?_⟩
        · rw [hgo, List.cons_append, ← hsplit]
        · rw [hgo]; exact hlt
        · rw [hgo]
          intro p hp
          rcases List.mem_cons.mp hp with rfl | hp2
          · exact lt_of_le_of_lt hkv hlt
          · exact hpre p hp2
        · rw [hgo]
          intro p hp
          rcases List.mem_cons.mp hp with rfl | hp2
          · exact le_trans hkv (le_of_lt hlt)
          · exact hall p hp2

theorem letter_fallback_ok (brain : Brain) (w : String)
    (hl : lettersOk brain.letters w = true) : ∃ s, letter_fallback brain w = .ok s := by
  unfold letter_fallback
  unfold lettersOk at hl
  cases hgl : w.data.getLast? with
  | none => exact ⟨"?", rfl⟩
  | some c =>
    rw [hgl] at hl
    have hl2 : (match aGet brain.letters c with
        | some lm => !lm.isEmpty
        | none => true) = true := hl
    show ∃ s, (match aGet brain.letters c with
        | none => Except.ok "?"
        | some [] => Except.error ()
        | some (kv :: rest) => Except.ok (w.push (maxPairGo kv rest).1)) = Except.ok s
    cases hga : aGet brain.letters c with
    | none => exact ⟨"?", rfl⟩
    | some lm =>
      rw [hga] at hl2
      cases lm with
      | nil => exact Bool.noConfusion (show (false : Bool) = true from hl2)
      | cons kv rest => exact ⟨w.push (maxPairGo kv rest).1, rfl⟩

/-! ## Claim C3: atomic persistence -/

theorem tmp_path_ne_user_path (uid : String) : tmp_path uid ≠ user_path uid := by
  intro h
  have hlen := congrArg String.length h
  rw [tmp_path, String.length_append] at hlen
  have h4 : (".tmp" : String).length = 4 := rfl
  omega

/-- Claim C3: `save_brain` writes the serialized brain to the temporary path
and only then replaces the target, so any crash before the replace (modelled
as stopping after the temporary write, with arbitrary possibly-partial
temporary content `d`) leaves the previously persisted document (or its
absence) at the target path unchanged; after a completed save the target
holds exactly the serialized brain and the temporary file is gone. -/
theorem save_brain_atomic (fs : FS) (uid : String) (d : StoredDoc) (b : Brain) :
    aGet (save_write_tmp fs uid d) (user_path uid) = aGet fs (user_path uid) ∧
    aGet (save_brain fs uid b) (user_path uid) = some (.good b) ∧
    aGet (save_brain fs uid b) (tmp_path uid) = none := by
  have hne : user_path uid ≠ tmp_path uid := fun h => tmp_path_ne_user_path uid h.symm
  refine ⟨?_, ?_, ?_⟩
  · unfold save_write_tmp
    exact aGet_aSet_ne _ _ _ _ hne
  · unfold save_brain os_replace save_write_tmp
    rw [aGet_aSet_self]
    show aGet (aDel (aSet (aSet fs (tmp_path uid) (.good b)) (user_path uid) (.good b))
      (tmp_path uid)) (user_path uid) = some (.good b)
    rw [aGet_aDel_ne _ _ _ hne, aGet_aSet_self]
  · unfold save_brain os_replace save_write_tmp
    rw [aGet_aSet_self]
    show aGet (aDel (aSet (aSet fs (tmp_path uid) (.good b)) (user_path uid) (.good b))
      (tmp_path uid)) (tmp_path uid) = none
    rw [aGet_aDel_self]

/-! ## Claim C10: sanitized user ids alias one brain -/

/-- Claim C10: two user ids whose sanitized forms agree (all characters that
are not alphanumeric, a hyphen or an underscore stripped) produce the same
file path, so `load_brain` returns the same brain and `save_brain` writes the
same persisted document for both. -/
theorem sanitized_id_aliasing (id1 id2 : String) (h : sanitize_id id1 = sanitize_id id2) :
    user_path id1 = user_path id2 ∧
    (∀ fs : FS, load_brain fs id1 = load_brain fs id2) ∧
    (∀ (fs : FS) (b : Brain), save_brain fs id1 b = save_brain fs id2 b) := by
  have hp : user_path id1 = user_path id2 := by unfold user_path; rw [h]
  have ht : tmp_path id1 = tmp_path id2 := by unfold tmp_path; rw [hp]
  refine ⟨hp, fun fs => ?_, fun fs b => ?_⟩
  · unfold load_brain; rw [hp]
  · unfold save_brain save_write_tmp os_replace; rw [hp, ht]

theorem sanitized_id_aliasing_witness :
    sanitize_id "ali ce!" = sanitize_id "alice" ∧
    load_brain [] "ali ce!" = load_brain [] "alice" ∧
    sanitize_id "!! !" = sanitize_id "" ∧
    user_path "!! !" = user_path "" :=
  ⟨by decide, (sanitized_id_aliasing "ali ce!" "alice" (by decide)).2.1 [], by decide,
   (sanitized_id_aliasing "!! !" "" (by decide)).1⟩

/-! ## Claim C2: loading a missing or malformed document -/

/-- Claim C2 (amended): `load_brain` returns the fresh default brain
(tone neutral, empty maps) when no document is persisted for the id, and the
persisted brain when a well-formed document exists, but on malformed content
it raises (the `json.load` exception propagates) instead of returning the
default brain. -/
theorem load_brain_amended (fs : FS) (uid : String) :
    (aGet fs (user_path uid) = none → load_brain fs uid = .ok default_brain) ∧
    (∀ b : Brain, aGet fs (user_path uid) = some (.good b) → load_brain fs uid = .ok b) ∧
    (aGet fs (user_path uid) = some .bad → load_brain fs uid = .error ()) ∧
    aGet default_brain.meta "tone" = some "neutral" ∧
    default_brain.context = [] ∧ default_brain.words = [] ∧ default_brain.letters = [] := by
  refine ⟨fun h => ?_, fun b h => ?_, fun h => ?_, by decide, rfl, rfl, rfl⟩
  · unfold load_brain; rw [h]
  · unfold load_brain; rw [h]
  · unfold load_brain; rw [h]

/-- Claim C2, counterexample: a persisted but malformed document makes
`load_brain` raise rather than return the default brain. -/
theorem load_malformed_raises :
    load_brain [("user_brains/u1.json", StoredDoc.bad)] "u1" = .error () ∧
    (Except.error () : Except Unit Brain) ≠ .ok default_brain :=
  ⟨by decide, by decide⟩

theorem load_brain_amended_witness :
    load_brain [] "u9" = .ok default_brain ∧
    load_brain [("user_brains/u9.json", StoredDoc.bad)] "u9" = .error () :=
  ⟨(load_brain_amended [] "u9").1 (by decide),
   (load_brain_amended [("user_brains/u9.json", StoredDoc.bad)] "u9").2.2.1 (by decide)⟩

/-! ## Claim C9: non-negativity invariant -/

/-- Claim C9: non-negative weights are preserved by word-graph reinforcement,
letter-graph reinforcement and decay (for any non-negative increment), and
each decayed word edge keeps its key with the new weight
`max 0 (w * 0.997)`, which is at most its pre-decay value. -/
theorem weights_nonneg_invariant (b : Brain) (text : String) (inc : ℚ)
    (hinc : 0 ≤ inc) (hb : BrainNN b) :
    BrainNN (update_word_connections b text inc) ∧
    BrainNN (update_letter_connections b text inc) ∧
    BrainNN (decay_words b) ∧
    ∀ a t v, wordWeight b a t = some v →
      wordWeight (decay_words b) a t = some (max 0 (v * (997 / 1000))) ∧
      max 0 (v * (997 / 1000)) ≤ v := by
  obtain ⟨hw, hl⟩ := hb
  refine ⟨⟨GraphNN_foldl_bumpA hinc _ _ hw, hl⟩,
          ⟨hw, GraphNN_foldl_tokens hinc _ _ hl⟩,
          ⟨GraphNN_decay_map b.words, hl⟩, ?_⟩
  intro a t v hv
  have h0 : 0 ≤ v := by
    unfold wordWeight graphWeight at hv
    cases hga : aGet b.words a with
    | none => rw [hga] at hv; exact Option.noConfusion hv
    | some m =>
      rw [hga] at hv
      simp only [Option.some_bind] at hv
      have hmn : MapNN m := by
        obtain ⟨q, hq, hqv⟩ := aGet_mem hga
        exact hqv ▸ hw q hq
      obtain ⟨p, hp, hpv⟩ := aGet_mem hv
      exact hpv ▸ hmn p hp
  constructor
  · rw [wordWeight_decay, hv]; rfl
  · exact max_le h0 (mul_le_of_le_one_right h0 (by norm_num))

theorem weights_nonneg_invariant_witness :
    BrainNN (decay_words (update_word_connections default_brain "hi there" 1)) ∧
    wordWeight (decay_words (update_word_connections default_brain "hi there" 1)) "hi" "there"
      = some (max 0 (1 * (997 / 1000))) ∧
    max 0 ((1 : ℚ) * (997 / 1000)) ≤ 1 := by
  have h := weights_nonneg_invariant (update_word_connections default_brain "hi there" 1)
    "x" 1 (by norm_num) (by decide)
  exact ⟨h.2.2.1, (h.2.2.2 "hi" "there" 1 (by decide)).1, (h.2.2.2 "hi" "there" 1 (by decide)).2⟩

/-! ## Claims C7, C8: the generation loop -/

/-- Claim C7 (amended): `build_sentence_from` starts at the seed and stops
exactly when the prediction is the empty string, when the predicted token
already occurs in the sequence (cycle guard), or when the sequence reaches
`max_len` elements, returning the space-joined sequence; the empty string is
never appended, but the sentinel `"?"` is a non-empty ordinary token, so it
can be appended and appear in the returned string. -/
theorem build_sentence_amended (brain : Brain) (us : List ℚ) (start : String)
    (max_len : Nat) (l : List String) (hm : 1 ≤ max_len)
    (h : build_sentence_list brain us start max_len = .ok l) :
    build_sentence_from brain us start max_len = .ok (String.intercalate " " l) ∧
    ∃ rest, l = start :: rest ∧ l.Nodup ∧ (∀ x ∈ rest, x ≠ "") ∧ l.length ≤ max_len := by
  obtain ⟨ext, hl, hlen, hnd, hne⟩ := buildList_spec brain (max_len - 1) us [start] start l h
  refine ⟨by unfold build_sentence_from; rw [h]; rfl, ext, by simpa using hl,
    hnd (List.nodup_singleton _), hne, ?_⟩
  simp only [List.length_singleton] at hlen
  omega

/-- Claim C7, counterexample: on the empty brain with seed `"x"` the sentinel
`"?"` is appended and appears in the returned string (it is non-empty, so the
`not nxt` stop condition does not fire). -/
theorem build_sentence_sentinel_appears :
    build_sentence_from default_brain [] "x" 8 = .ok "x ?" ∧
    strContains "x ?" "?" = true :=
  ⟨by decide, by decide⟩

theorem build_sentence_amended_witness :
    build_sentence_from default_brain [] "x" 8 = .ok (String.intercalate " " ["x", "?"]) ∧
    ∃ rest, ["x", "?"] = "x" :: rest ∧ (["x", "?"] : List String).Nodup ∧
      (∀ y ∈ rest, y ≠ "") ∧ (["x", "?"] : List String).length ≤ 8 :=
  build_sentence_amended default_brain [] "x" 8 ["x", "?"] (by decide) (by decide)

/-- Claim C8: generation with `max_len = 8` always terminates (the loop is a
bounded `for` over `range(max_len - 1)`, so the model is structurally
recursive on that bound) and any returned sequence has at most 8 tokens. -/
theorem generate_bounded (brain : Brain) (us : List ℚ) (start : String) (l : List String)
    (h : build_sentence_list brain us start 8 = .ok l) :
    l.length ≤ 8 ∧ build_sentence_from brain us start 8 = .ok (String.intercalate " " l) := by
  obtain ⟨ext, hl, hlen, hnd, hne⟩ := buildList_spec brain 7 us [start] start l h
  refine ⟨?_, by unfold build_sentence_from; rw [h]; rfl⟩
  simp only [List.length_singleton] at hlen
  omega

theorem generate_bounded_witness :
    (["x", "?"] : List String).length ≤ 8 ∧
    build_sentence_from default_brain [] "x" 8 = .ok (String.intercalate " " ["x", "?"]) :=
  generate_bounded default_brain [] "x" ["x", "?"] (by decide)

/-! ## Claim C4: totality of prediction -/

theorem weightedChoice_mem (m : List (String × ℚ)) (u : ℚ) (hm : 0 < sumW m)
    (hne : m ≠ []) : ∃ p ∈ m, weightedChoice m u = .ok p.1 := by
  obtain ⟨p, hp, hpick⟩ := pickGo_mem m (u * sumW m) hne
  refine ⟨p, hp, ?_⟩
  unfold weightedChoice
  rw [if_neg (not_le.mpr hm), hpick]

/-- Claim C4 (amended): `predict_next_word` returns a value provided that
every non-empty word-edge map of the token has positive total weight and
that the letter entry of the token's last character, when present, is
non-empty; when the total weight is positive the result is one of the
token's word successors; when the word-edge map is absent or empty and the
last character has a non-empty letter entry, the result is the lowercased
token extended by the first-inserted highest-weight successor character; and
when neither graph applies the sentinel `"?"` is returned.  (Without the two
provisos the source raises: `random.choices` raises `ValueError` on a
non-positive total, and `max` raises on an empty dict.) -/
theorem predict_next_word_amended (brain : Brain) (u : ℚ) (word : String)
    (hw : edgesTotalOk brain.words (pyLower word) = true)
    (hl : lettersOk brain.letters (pyLower word) = true) :
    (∃ s, predict_next_word brain u word = .ok s) ∧
    (∀ m, aGet brain.words (pyLower word) = some m → m.isEmpty = false → 0 < sumW m →
      ∃ p ∈ m, predict_next_word brain u word = .ok p.1) ∧
    (∀ c kv rest,
      (aGet brain.words (pyLower word) = none ∨ aGet brain.words (pyLower word) = some []) →
      (pyLower word).data.getLast? = some c → aGet brain.letters c = some (kv :: rest) →
      ∃ pre best post, kv :: rest = pre ++ best :: post ∧
        predict_next_word brain u word = .ok ((pyLower word).push best.1) ∧
        (∀ p ∈ pre, p.2 < best.2) ∧ ∀ p ∈ kv :: rest, p.2 ≤ best.2) ∧
    ((aGet brain.words (pyLower word) = none ∨ aGet brain.words (pyLower word) = some []) →
      (∀ c, (pyLower word).data.getLast? = some c → aGet brain.letters c = none) →
      predict_next_word brain u word = .ok "?") := by
  have hfall : ∀ c kv rest, (pyLower word).data.getLast? = some c →
      aGet brain.letters c = some (kv :: rest) →
      letter_fallback brain (pyLower word) = .ok ((pyLower word).push (maxPairGo kv rest).1) := by
    intro c kv rest hgl hlm
    unfold letter_fallback
    rw [hgl]
    show (match aGet brain.letters c with
      | none => Except.ok "?"
      | some [] => Except.error ()
      | some (kv :: rest) => Except.ok ((pyLower word).push (maxPairGo kv rest).1)) =
      Except.ok ((pyLower word).push (maxPairGo kv rest).1)
    rw [hlm]
  have hsent : (∀ c, (pyLower word).data.getLast? = some c → aGet brain.letters c = none) →
      letter_fallback brain (pyLower word) = .ok "?" := by
    intro hno
    unfold letter_fallback
    cases hgl : (pyLower word).data.getLast? with
    | none => rfl
    | some c =>
      show (match aGet brain.letters c with
        | none => Except.ok "?"
        | some [] => Except.error ()
        | some (kv :: rest) => Except.ok ((pyLower word).push (maxPairGo kv rest).1)) =
        Except.ok "?"
      rw [hno c hgl]
  have hmain : ∀ m, aGet brain.words (pyLower word) = some m →
      predict_next_word brain u word =
        (if m.isEmpty then letter_fallback brain (pyLower word) else weightedChoice m u) := by
    intro m hm2
    simp only [predict_next_word]
    rw [hm2]
  have hmainN : aGet brain.words (pyLower word) = none →
      predict_next_word brain u word = letter_fallback brain (pyLower word) := by
    intro hm2
    simp only [predict_next_word]
    rw [hm2]
  refine ⟨?_, ?_, ?_, ?_⟩
  · cases hga : aGet brain.words (pyLower word) with
    | none => rw [hmainN hga]; exact letter_fallback_ok brain (pyLower word) hl
    | some m =>
      rw [hmain m hga]
      by_cases hme : m.isEmpty = true
      · rw [if_pos hme]; exact letter_fallback_ok brain (pyLower word) hl
      · rw [if_neg hme]
        have hmf : m.isEmpty = false := by simpa using hme
        have hw2 : (m.isEmpty || decide (0 < sumW m)) = true := by
          unfold edgesTotalOk at hw
          rw [hga] at hw
          exact hw
        rw [hmf] at hw2
        simp at hw2
        have hne : m ≠ [] := by intro he; subst he; exact hme rfl
        obtain ⟨p, hp, hpc⟩ := weightedChoice_mem m u hw2 hne
        exact ⟨p.1, hpc⟩
  · intro m hm2 hmf hpos
    have hne : m ≠ [] := by intro he; subst he; simp at hmf
    obtain ⟨p, hp, hpc⟩ := weightedChoice_mem m u hpos hne
    refine ⟨p, hp, ?_⟩
    rw [hmain m hm2, hmf]
    show (if False then letter_fallback brain (pyLower word) else weightedChoice m u) = _
    rw [if_neg (fun hc => hc)]
    exact hpc
  · intro c kv rest hnone hgl hlm
    have hpred : predict_next_word brain u word = letter_fallback brain (pyLower word) := by
      rcases hnone with hga | hga
      · exact hmainN hga
      · rw [hmain [] hga]; rfl
    rcases maxPairGo_spec rest kv with ⟨hr, hall⟩ | ⟨pre, post, hsplit, hlt, hpre, hall⟩
    · refine ⟨[], kv, rest, by simp, ?_, by simp, ?_⟩
      · rw [hpred, hfall c kv rest hgl hlm, hr]
      · intro p hp
        rcases List.mem_cons.mp hp with rfl | hp2
        · exact le_refl _
        · exact hall p hp2
    · refine ⟨kv :: pre, maxPairGo kv rest, post, ?_, ?_, ?_, ?_⟩
      · rw [List.cons_append, ← hsplit]
      · rw [hpred, hfall c kv rest hgl hlm]
      · intro p hp
        rcases List.mem_cons.mp hp with rfl | hp2
        · exact hlt
        · exact hpre p hp2
      · intro p hp
        rcases List.mem_cons.mp hp with rfl | hp2
        · exact le_of_lt hlt
        · exact hall p hp2
  · intro hnone hno
    have hpred : predict_next_word brain u word = letter_fallback brain (pyLower word) := by
      rcases hnone with hga | hga
      · exact hmainN hga
      · rw [hmain [] hga]; rfl
    rw [hpred, hsent hno]

/-- Claim C4, counterexample: a token whose outgoing word edges are present
but all of weight zero makes `predict_next_word` raise (`random.choices`
with a non-positive weight total), instead of falling back or returning the
sentinel. -/
theorem predict_zero_weight_raises :
    predict_next_word ⟨[], [("a", [("b", 0)])], [], [("tone", "neutral")]⟩ 0 "a" = .error () ∧
    sumW [("b", (0 : ℚ))] = 0 :=
  ⟨by decide, by decide⟩

theorem predict_next_word_amended_witness :
    edgesTotalOk ([("a", [("b", 2)])] : List (String × List (String × ℚ))) (pyLower "a") = true ∧
    lettersOk ([] : List (Char × List (Char × ℚ))) (pyLower "a") = true ∧
    ∃ s, predict_next_word ⟨[], [("a", [("b", 2)])], [], [("tone", "neutral")]⟩ 0 "a" = .ok s :=
  ⟨by decide, by decide,
   (predict_next_word_amended ⟨[], [("a", [("b", 2)])], [], [("tone", "neutral")]⟩ 0 "a"
     (by decide) (by decide)).1⟩

/-! ## Claim C5: the hello-there weight example -/

/-- Claim C5, counterexample: because decay runs at the end of every chat
ingest, the weight of `hello → there` before the second call's decay is
0.997 + 1 = 1.997, not 2.0. -/
theorem hello_there_weight_cex :
    (match ingest_msg default_brain "hello there friend" with
     | .ok b1 => (ingest_pre b1 "hello there world").map (fun b => wordWeight b "hello" "there")
     | .error e => .error e) = .ok (some (1997 / 1000)) ∧
    (1997 / 1000 : ℚ) ≠ 2 :=
  ⟨by decide, by decide⟩

/-- Claim C5 (amended): with decay applied once at the end of every ingest,
`words["hello"]["there"]` equals 1.997 immediately before the second call's
decay, and after a third ingest of any text that does not itself contain the
adjacent lowercased token pair `("hello", "there")` (and does not raise) the
weight equals 1.997 × 0.997 × 0.997 = 1.985035973. -/
theorem hello_there_weight_amended (t3 : String) (b3 : Brain)
    (hpair : ("hello", "there") ∉ adjPairs ((pySplit t3).map pyLower))
    (h3 : ingest_seq default_brain ["hello there friend", "hello there world", t3] = .ok b3) :
    (match ingest_msg default_brain "hello there friend" with
     | .ok b1 => (ingest_pre b1 "hello there world").map (fun b => wordWeight b "hello" "there")
     | .error e => .error e) = .ok (some (1997 / 1000)) ∧
    wordWeight b3 "hello" "there" = some (1985035973 / 1000000000) := by
  refine ⟨by decide, ?_⟩
  cases h1 : ingest_msg default_brain "hello there friend" with
  | error e =>
    exfalso
    unfold ingest_seq at h3
    rw [h1] at h3
    exact Except.noConfusion h3
  | ok b1 =>
    have h3b : ingest_seq b1 ["hello there world", t3] = .ok b3 := by
      unfold ingest_seq at h3
      rw [h1] at h3
      exact h3
    cases h2 : ingest_msg b1 "hello there world" with
    | error e =>
      exfalso
      unfold ingest_seq at h3b
      rw [h2] at h3b
      exact Except.noConfusion h3b
    | ok b2 =>
      have h3c : ingest_seq b2 [t3] = .ok b3 := by
        unfold ingest_seq at h3b
        rw [h2] at h3b
        exact h3b
      have h3d : ingest_msg b2 t3 = .ok b3 := by
        unfold ingest_seq at h3c
        cases hx : ingest_msg b2 t3 with
        | error e => rw [hx] at h3c; exact Except.noConfusion h3c
        | ok bx =>
          rw [hx] at h3c
          have h3e : Except.ok bx = Except.ok b3 := h3c
          rw [← Except.ok.inj h3e]
      have hw2 : wordWeight b2 "hello" "there" = some (1991009 / 1000000) := by
        have hc : (match ingest_msg default_brain "hello there friend" with
            | .ok x => (ingest_msg x "hello there world").map
                (fun b => wordWeight b "hello" "there")
            | .error e => .error e) = .ok (some (1991009 / 1000000)) := by decide
        rw [h1] at hc
        have hc2 : (ingest_msg b1 "hello there world").map
            (fun b => wordWeight b "hello" "there") = .ok (some (1991009 / 1000000)) := hc
        rw [h2] at hc2
        have hc3 : Except.ok (wordWeight b2 "hello" "there") =
            Except.ok (some ((1991009 : ℚ) / 1000000)) := hc2
        exact Except.ok.inj hc3
      rw [ingest_other_edge b2 t3 b3 "hello" "there" hpair h3d, hw2]
      show some (max 0 (1991009 / 1000000 * (997 / 1000))) = some (1985035973 / 1000000000)
      decide

theorem hello_there_weight_amended_witness :
    (("hello", "there") ∉ adjPairs ((pySplit "good morning").map pyLower)) ∧
    (ingest_seq default_brain ["hello there friend", "hello there world", "good morning"]).map
      (fun b => wordWeight b "hello" "there") = .ok (some (1985035973 / 1000000000)) := by
  refine ⟨by decide, ?_⟩
  have hok : (ingest_seq default_brain
      ["hello there friend", "hello there world", "good morning"]).isOk = true := by decide
  cases h3 : ingest_seq default_brain
      ["hello there friend", "hello there world", "good morning"] with
  | error e =>
    rw [h3] at hok
    exact Bool.noConfusion (show false = true from hok)
  | ok b3 =>
    have h := (hello_there_weight_amended "good morning" b3 (by decide) h3).2
    show Except.ok (wordWeight b3 "hello" "there") = .ok (some (1985035973 / 1000000000))
    rw [h]

/-! ## Claim C1: persistence on every reply path -/

/-- Claim C1 (amended): whenever `/chat` returns a reply, the loaded brain
passed through the full ingest pipeline; the ingested brain is persisted via
`save_brain` before the reply is returned on the normal path and on the
identity-query path with a known name, but on the identity-query path with
no known name the reply is returned with the store left untouched (the
mutation is lost). -/
theorem chat_persists_amended (fs : FS) (uid msg : String) (us : List ℚ) (k : Nat)
    (r : String) (fs2 : FS)
    (h : chat_endpoint fs uid msg us k = .ok (.reply r, fs2)) :
    ∃ b0 b1, load_brain fs (normId uid) = .ok b0 ∧ ingest_msg b0 (pyStrip msg) = .ok b1 ∧
      (fs2 = save_brain fs (normId uid) b1 ∨
        (isIdentityQuery (pyLower (pyStrip msg)) = true ∧ identityName b1 = "" ∧ fs2 = fs)) := by
  simp only [chat_endpoint] at h
  split at h
  · exact absurd h (by simp)
  · split at h
    · exact Except.noConfusion h
    next b0 hload =>
      split at h
      · exact Except.noConfusion h
      next b1 hing =>
        refine ⟨b0, b1, hload, hing, ?_⟩
        split at h
        next hiq =>
          split at h
          next hname =>
            left
            simp only [Except.ok.injEq, Prod.mk.injEq, ChatResult.reply.injEq] at h
            exact h.2.symm
          next hname =>
            right
            simp only [Except.ok.injEq, Prod.mk.injEq, ChatResult.reply.injEq] at h
            exact ⟨hiq, not_ne_iff.mp hname, h.2.symm⟩
        next hiq =>
          split at h
          · exact Except.noConfusion h
          next predicted hbuild =>
            left
            simp only [Except.ok.injEq, Prod.mk.injEq, ChatResult.reply.injEq] at h
            exact h.2.symm

/-- Claim C1, counterexample: submitting the identity query `"what is my
name"` for a user with no known name mutates the brain (word and letter
reinforcement and decay have run, the word graph is non-empty) but the reply
is returned with the store unchanged: `save_brain` is never called on this
path. -/
theorem chat_identity_unknown_skips_save :
    chat_endpoint [] "u1" "what is my name" [] 0 =
      .ok (.reply "I don\x27t know your name yet. You can say: \x27My name is ...\x27", []) ∧
    (ingest_msg default_brain "what is my name").map (fun b => b.words.isEmpty) = .ok false :=
  ⟨by decide, by decide⟩

theorem chat_persists_amended_witness :
    ∃ b0 b1, load_brain [] (normId "u1") = .ok b0 ∧
      ingest_msg b0 (pyStrip "what is my name") = .ok b1 ∧
      (([] : FS) = save_brain [] (normId "u1") b1 ∨
        (isIdentityQuery (pyLower (pyStrip "what is my name")) = true ∧
          identityName b1 = "" ∧ ([] : FS) = ([] : FS))) :=
  chat_persists_amended [] "u1" "what is my name" [] 0
    "I don\x27t know your name yet. You can say: \x27My name is ...\x27" [] (by decide)

/-! ## Claim C6: the name round trip -/

/-- Claim C6, counterexample: context extraction stores the lowercased token
("ava"), so the identity reply is "Your name is ava.", which does not
contain the capitalized "Ava". -/
theorem chat_name_lowercased_cex :
    (match chat_endpoint [] "u" "My name is Ava" [] 0 with
     | .ok r1 => (chat_endpoint r1.2 "u" "what is my name" [] 0).map (fun (r2 : ChatResult × FS) => replyText r2.1)
     | .error e => .error e) = .ok "Your name is ava." ∧
    strContains "Your name is ava." "Ava" = false :=
  ⟨by decide, by decide⟩

/-- Claim C6 (amended): submitting "My name is Ava" and then the identity
query "what is my name" for the same user produces a reply containing the
lowercased name "ava". -/
theorem chat_name_lowercased_amended :
    (match chat_endpoint [] "u" "My name is Ava" [] 0 with
     | .ok r1 => (chat_endpoint r1.2 "u" "what is my name" [] 0).map
         (fun (r2 : ChatResult × FS) => strContains (replyText r2.1) "ava")
     | .error e => .error e) = .ok true := by decide

end ClaimProofs
